import Mathlib

/-!
# Virtual clock: deadline contexts over a mocked timer engine

A shallow embedding of `context.go` (`Mock.DeadlineContext`, `Mock.TimeoutContext`,
`Mock.deadlineContext`, `mockCtx`) together with the timer engine it runs on.

The engine itself (`Mock`, its mutex, `newTimerFunc`, `NewTimer`, `NewTicker`, `Add`,
`AddNext`, `Timer.Stop`) is not part of the available sources; those definitions follow
sections 3, 4.1 and 5 of the specification and are marked as such.

Conventions
* A `time.Time` and a `time.Duration` are integers (`Int`, a count of nanoseconds);
  `t.Add(d)` is `t + d`, `a.After(b)` is `b < a`.
* `m.Lock()` on a held lock does not return: `Lock` is `none` there, and a call of this
  file that meets it ends as `Outcome.blocked`, which records the engine state and the call
  that is waiting.
* Go's `nil` error is `none`.
-/

namespace Clock

/-- Errors a context can report: `context.Canceled`, `context.DeadlineExceeded`, or any
other cause a context built elsewhere may carry. -/
inductive Err where
  | Canceled
  | DeadlineExceeded
  | cause (code : Nat)
deriving DecidableEq, Repr

/-- A snapshot of a `context.Context` value.

* `other deadline err` is a context built outside this package (for instance
  `context.Background()` is `other none none`); `err` is what its `Err()` returns.
* `cancelCtx parent err` is the value made by `context.WithCancel(parent)`.
* `mockCtx Context deadline done err` is the struct `mockCtx` of `context.go`; `done` says
  whether the channel `done` has been closed. -/
inductive Context where
  | other (deadline : Option Int) (err : Option Err)
  | cancelCtx (parent : Context) (err : Option Err)
  | mockCtx (Context : Context) (deadline : Int) (done : Bool) (err : Option Err)
deriving DecidableEq, Repr

/-- The method `Deadline()`: `mockCtx.Deadline` returns `(ctx.deadline, true)`; a
`cancelCtx` has no method of its own and answers with its parent's. -/
def Context.Deadline : Context → Option Int
  | .other deadline _ => deadline
  | .cancelCtx parent _ => parent.Deadline
  | .mockCtx _ deadline _ _ => some deadline

/-- The method `Err()`: `mockCtx.Err` selects on `ctx.done` and returns `ctx.err` when it is
closed and `nil` otherwise. -/
def Context.Err : Context → Option Err
  | .other _ err => err
  | .cancelCtx _ err => err
  | .mockCtx _ _ done err => if done then err else none

/-- Whether the channel returned by `Done()` is closed: `mockCtx.Done` returns `ctx.done`;
for the other contexts the channel is closed exactly when `Err()` is not nil. -/
def Context.isDone : Context → Bool
  | .other _ err => err.isSome
  | .cancelCtx _ err => err.isSome
  | .mockCtx _ _ done _ => done

/-- The library call `context.WithCancel(parent)`: a child that is not cancelled unless the
parent is already done, in which case it carries the parent's error from the start. -/
def WithCancel (parent : Context) : Context :=
  .cancelCtx parent parent.Err

/-- Modelled from the spec: a scheduled entry of the engine (section 3). `isFunc` tells an
after-func entry (fires by calling back) from a timer or ticker (fires by a send on its
notification slot). An entry is armed exactly when it is in `Mock.pending`. -/
structure Entry where
  seq : Nat
  fireAt : Int
  period : Int
  isFunc : Bool
deriving DecidableEq, Repr

/-- Modelled from the spec: the virtual clock state (section 3), whose declaration is not
in the available sources. `locked` is the state of the single mutual-exclusion lock of
section 5; `slots` holds, per entry `seq`, the undelivered timestamp of its single-slot
notification channel. -/
structure Mock where
  now : Int
  pending : List Entry
  nextSeq : Nat
  slots : List (Nat × Int)
  locked : Bool
deriving DecidableEq, Repr

/-- Modelled from the spec: `m.Lock()` on the engine's mutual-exclusion lock. The lock is
not re-entrant, so acquiring it while it is held never returns (`none`). -/
def Lock (m : Mock) : Option Mock :=
  if m.locked then none else some { m with locked := true }

/-- Modelled from the spec: `m.Unlock()`; releasing a lock that is not held is a fatal
error (`none`). -/
def Unlock (m : Mock) : Option Mock :=
  if m.locked then some { m with locked := false } else none

/-- Modelled from the spec: `Now()` reads the logical timestamp. -/
def Now (m : Mock) : Int := m.now

/-- Modelled from the spec: `m.newTimerFunc(deadline, fn)`, the lock-free constructor behind
`NewTimer` and `AfterFunc` (section 4.1): a one-shot entry due at `deadline` with the next
creation sequence number is appended to `pending`; the handle returned is its `seq`. -/
def newTimerFunc (m : Mock) (deadline : Int) (isFunc : Bool) : Mock × Nat :=
  ({ m with
      pending := m.pending ++ [{ seq := m.nextSeq, fireAt := deadline, period := 0, isFunc := isFunc }],
      nextSeq := m.nextSeq + 1 },
   m.nextSeq)

/-- What `deadlineContext` hands back: the context, and the timer (by `seq`) that the
goroutine it started is waiting on; `waiter = none` on the path that starts no goroutine.
The cancel function returned in Go is the one of the inner `cancelCtx`. -/
structure Derived where
  ctx : Context
  waiter : Option Nat
deriving DecidableEq, Repr

/-- The body of `Mock.deadlineContext` between its `m.Lock()` and the deferred
`m.Unlock()` (context.go lines 32-52). -/
def deadlineContextBody (m : Mock) (parent : Context) (deadline : Int) : Mock × Derived :=
  let cancelCtx := WithCancel parent
  match parent.Deadline with
  | some pd =>
    if ¬ (pd < deadline) then (m, { ctx := cancelCtx, waiter := none })
    else
      let ctx := Context.mockCtx cancelCtx deadline false none
      let (m1, t) := newTimerFunc m deadline false
      (m1, { ctx := ctx, waiter := some t })
  | none =>
    let ctx := Context.mockCtx cancelCtx deadline false none
    let (m1, t) := newTimerFunc m deadline false
    (m1, { ctx := ctx, waiter := some t })

/-- The calls of `context.go` that take the engine's lock, with their arguments. -/
inductive Call where
  | DeadlineContext (parent : Context) (d : Int)
  | TimeoutContext (parent : Context) (timeout : Int)
  | deadlineContext (parent : Context) (deadline : Int)
deriving DecidableEq, Repr

/-- How a call ends. It returns a value; or it never returns, blocked on `m.Lock()`:
`blocked m call` gives the engine state `m` it is left in and the innermost call that is
waiting for the lock; or the program stops on the fatal error of unlocking a lock that is
not held. -/
inductive Outcome (α : Type) where
  | returned (a : α)
  | blocked (m : Mock) (call : Call)
  | fatal
deriving DecidableEq, Repr

/-- What the call returned, if it did. -/
def Outcome.result {α : Type} : Outcome α → Option α
  | .returned a => some a
  | .blocked _ _ => none
  | .fatal => none

/-- The function `Mock.deadlineContext` (context.go lines 29-53): `m.Lock()`, the body, and
the deferred `m.Unlock()` on return. -/
def deadlineContext (m : Mock) (parent : Context) (deadline : Int) : Outcome (Mock × Derived) :=
  match Lock m with
  | none => .blocked m (.deadlineContext parent deadline)
  | some m1 =>
    match Unlock (deadlineContextBody m1 parent deadline).1 with
    | none => .fatal
    | some m3 => .returned (m3, (deadlineContextBody m1 parent deadline).2)

/-- The function `Mock.DeadlineContext` (context.go lines 13-17): `m.Lock()`, the call
`m.deadlineContext(parent, d)`, and the deferred `m.Unlock()` on return. -/
def DeadlineContext (m : Mock) (parent : Context) (d : Int) : Outcome (Mock × Derived) :=
  match Lock m with
  | none => .blocked m (.DeadlineContext parent d)
  | some m1 =>
    match deadlineContext m1 parent d with
    | .returned (m2, r) =>
      match Unlock m2 with
      | none => .fatal
      | some m3 => .returned (m3, r)
    | .blocked b call => .blocked b call
    | .fatal => .fatal

/-- The function `Mock.TimeoutContext` (context.go lines 23-27): `m.Lock()`, the call
`m.deadlineContext(parent, m.now.Add(timeout))`, and the deferred `m.Unlock()` on return. -/
def TimeoutContext (m : Mock) (parent : Context) (timeout : Int) : Outcome (Mock × Derived) :=
  match Lock m with
  | none => .blocked m (.TimeoutContext parent timeout)
  | some m1 =>
    match deadlineContext m1 parent (m1.now + timeout) with
    | .returned (m2, r) =>
      match Unlock m2 with
      | none => .fatal
      | some m3 => .returned (m3, r)
    | .blocked b call => .blocked b call
    | .fatal => .fatal

/-- What the comment of `TimeoutContext` promises, in the spec's words: the outcome of
`DeadlineContext(parent, m.Now().Add(timeout))` in the same engine state. -/
def TimeoutContextSpec (m : Mock) (parent : Context) (timeout : Int) : Outcome (Mock × Derived) :=
  DeadlineContext m parent (Now m + timeout)

/-- An engine at time `t0` with nothing pending and the lock free. -/
def NewMock (t0 : Int) : Mock :=
  { now := t0, pending := [], nextSeq := 0, slots := [], locked := false }

/-- The call `context.Background()`. -/
def Background : Context := .other none none

/-! ## The engine (sections 3 and 4.1 of the specification) -/

/-- Modelled from the spec: `NewTimer(d)` creates a one-shot entry with `fireAt = now + d`. -/
def NewTimer (m : Mock) (d : Int) : Mock × Nat :=
  newTimerFunc m (m.now + d) false

/-- Modelled from the spec: `NewTicker(d)` creates an entry with `fireAt = now + d` and
`period = d`. -/
def NewTicker (m : Mock) (d : Int) : Mock × Nat :=
  ({ m with
      pending := m.pending ++ [{ seq := m.nextSeq, fireAt := m.now + d, period := d, isFunc := false }],
      nextSeq := m.nextSeq + 1 },
   m.nextSeq)

/-- Modelled from the spec: `Stop()` removes the entry from `pending` and reports whether
it was armed. -/
def Stop (m : Mock) (seq : Nat) : Mock × Bool :=
  ({ m with pending := m.pending.filter (fun x => x.seq ≠ seq) },
   m.pending.any (fun x => x.seq = seq))

/-- Modelled from the spec: the non-blocking send on the single-slot channel of entry
`seq`; a firing that finds the slot occupied is dropped. -/
def send (slots : List (Nat × Int)) (seq : Nat) (t : Int) : List (Nat × Int) :=
  match slots.lookup seq with
  | some _ => slots
  | none => (seq, t) :: slots

/-- Modelled from the spec: a receive on the single-slot channel of entry `seq` empties
it. -/
def recv (slots : List (Nat × Int)) (seq : Nat) : List (Nat × Int) :=
  slots.filter (fun p => p.1 ≠ seq)

/-- Modelled from the spec: the firing order, `fireAt` ascending and then `seq`
ascending. -/
def before (a b : Entry) : Bool :=
  a.fireAt < b.fireAt || (a.fireAt == b.fireAt && a.seq < b.seq)

/-- Modelled from the spec: the first entry of a list in firing order. -/
def earliest : List Entry → Option Entry
  | [] => none
  | e :: es =>
    match earliest es with
    | none => some e
    | some x => if before x e then some x else some e

/-- Modelled from the spec: the pending entry to fire next, the first in firing order
among those with `fireAt <= now`. -/
def nextDue (m : Mock) : Option Entry :=
  earliest (m.pending.filter (fun e => e.fireAt ≤ m.now))

/-- Modelled from the spec: the pending list after entry `e` has fired; a one-shot entry
(`period = 0`) is removed, a periodic one is re-armed at `fireAt + period`. -/
def rearm (pending : List Entry) (e : Entry) : List Entry :=
  if e.period = 0 then pending.filter (fun x => x.seq ≠ e.seq)
  else pending.map (fun x => if x.seq = e.seq then { x with fireAt := x.fireAt + x.period } else x)

/-- Modelled from the spec: one firing. A timer or ticker sends its `fireAt` on its slot,
an after-func entry calls back instead; then the entry is removed or re-armed. -/
def fire (m : Mock) (e : Entry) : Mock :=
  { m with
    slots := if e.isFunc then m.slots else send m.slots e.seq e.fireAt,
    pending := rearm m.pending e }

/-- Modelled from the spec: the firing pass of `Add`, which fires the next due entry until
none is due. It returns the engine and the firings in order, each as the entry's `seq`
with the timestamp it observed. The first argument bounds the number of firings. -/
def fireLoop : Nat → Mock → Mock × List (Nat × Int)
  | 0, m => (m, [])
  | n + 1, m =>
    match nextDue m with
    | none => (m, [])
    | some e =>
      let r := fireLoop n (fire m e)
      (r.1, (e.seq, e.fireAt) :: r.2)

/-- A bound on the firings entry `e` can still make up to `now`. -/
def fuelOf (now : Int) (e : Entry) : Nat :=
  if e.fireAt ≤ now then (now - e.fireAt).toNat + 1 else 0

/-- A bound on the firings of one pass: every firing of an entry whose period is not
negative lowers it. -/
def fuel (m : Mock) : Nat :=
  (m.pending.map (fuelOf m.now)).sum

/-- Modelled from the spec: `Add(delta)` sets `now = now + delta` and runs the firing
pass. The bound `fuel` is enough in every well-formed state: the pass stops because
nothing is due (`fireLoop_complete`). -/
def Add (m : Mock) (delta : Int) : Mock × List (Nat × Int) :=
  let m1 := { m with now := m.now + delta }
  fireLoop (fuel m1) m1

/-- Modelled from the spec: the minimum `fireAt` among a list of entries. -/
def minFireAt : List Entry → Option Int
  | [] => none
  | e :: es =>
    match minFireAt es with
    | none => some e.fireAt
    | some t => some (min e.fireAt t)

/-- Modelled from the spec: `AddNext()`. With nothing pending it changes nothing and
returns a zero delta; otherwise it sets `now` to the minimum `fireAt`, runs the firing
pass, and returns the delta advanced. -/
def AddNext (m : Mock) : Mock × Int × List (Nat × Int) :=
  match minFireAt m.pending with
  | none => (m, 0, [])
  | some t =>
    let m1 := { m with now := t }
    let r := fireLoop (fuel m1) m1
    (r.1, t - m.now, r.2)

/-- The timestamps entry `q` observed in a list of firings, in order. -/
def firingsOf (q : Nat) (log : List (Nat × Int)) : List Int :=
  (log.filter (fun p => p.1 = q)).map Prod.snd

/-- Well-formed engine states: creation sequence numbers are distinct and below
`nextSeq`, no period is negative, and only created entries own a slot. -/
structure WF (m : Mock) : Prop where
  nodup : (m.pending.map Entry.seq).Nodup
  seq_lt : ∀ e ∈ m.pending, e.seq < m.nextSeq
  period_nonneg : ∀ e ∈ m.pending, 0 ≤ e.period
  slot_lt : ∀ p ∈ m.slots, p.1 < m.nextSeq

/-- The firings a due entry still makes up to `now`: its `fireAt`, and, when it is
periodic, those of the re-armed entry. The first argument bounds the length. -/
def ticks : Nat → Int → Int → Int → List Int
  | 0, _, _, _ => []
  | n + 1, now, f, p =>
    if f ≤ now then f :: (if p = 0 then [] else ticks n now (f + p) p) else []

/-- The timestamps entry `e` is due to observe in a firing pass at `now`. -/
def expected (now : Int) (e : Entry) : List Int :=
  ticks (fuelOf now e) now e.fireAt e.period

/-- The timestamps the entries with `seq = q` are due to observe in a firing pass. -/
def expectedOf (now : Int) (q : Nat) : List Entry → List Int
  | [] => []
  | e :: es => if e.seq = q then expected now e ++ expectedOf now q es else expectedOf now q es

/-! ## The goroutine started by `deadlineContext` (context.go lines 42-51) -/

/-- Where the goroutine stands: blocked in `select`; past the `select` with `ctx.err`
assigned and `close(ctx.done)` next (`deferred` says whether `t.Stop()` was deferred, which
the cancellation case does); past the close with the deferred `t.Stop()` left to run; or
returned. -/
inductive Pc where
  | select
  | close (deferred : Bool)
  | stop
  | exited
deriving DecidableEq, Repr

/-- A derived context at run time: the engine, the `mockCtx` (its embedded `cancelCtx` with
error `cancelErr`, and its fields `deadline`, `done`, `err`), the timer `t` and the
goroutine. `closes` counts the executions of `close(ctx.done)`. -/
structure Sys where
  m : Mock
  parent : Context
  cancelErr : Option Err
  deadline : Int
  done : Bool
  err : Option Err
  t : Nat
  pc : Pc
  closes : Nat
deriving DecidableEq, Repr

/-- The embedded `cancelCtx` of the `mockCtx`. -/
def Sys.cancelCtx (s : Sys) : Context := .cancelCtx s.parent s.cancelErr

/-- The `mockCtx` as its callers see it. -/
def Sys.ctx (s : Sys) : Context := .mockCtx s.cancelCtx s.deadline s.done s.err

/-- The state right after `deadlineContext` returned a `mockCtx`: the goroutine is at its
`select`. There is none when the plain `cancelCtx` was returned. -/
def Sys.start (m : Mock) (r : Derived) : Option Sys :=
  match r.ctx, r.waiter with
  | .mockCtx (.cancelCtx parent cancelErr) deadline done err, some t =>
    some { m := m, parent := parent, cancelErr := cancelErr, deadline := deadline,
           done := done, err := err, t := t, pc := .select, closes := 0 }
  | _, _ => none

/-- What can happen to a derived context: the returned cancel function is called; the
parent is cancelled with some cause; the test advances the clock; or the goroutine runs:
its `select` takes the case `<-t.C`, its `select` takes the case `<-cancelCtx.Done()`, or
it resumes after the `select`. -/
inductive Event where
  | cancel
  | parentDone (cause : Err)
  | add (delta : Int)
  | addNext
  | selectTimer
  | selectCancel
  | resume
deriving DecidableEq, Repr

/-- One step. An event that is not enabled leaves the state as it is: a `select` case
needs its channel ready, and cancelling a cancelled `cancelCtx` does nothing. -/
def step (s : Sys) : Event → Sys
  | .cancel =>
    match s.cancelErr with
    | none => { s with cancelErr := some .Canceled }
    | some _ => s
  | .parentDone cause =>
    match s.cancelErr with
    | none => { s with cancelErr := some cause }
    | some _ => s
  | .add delta => { s with m := (Add s.m delta).1 }
  | .addNext => { s with m := (AddNext s.m).1 }
  | .selectTimer =>
    match s.pc, s.m.slots.lookup s.t with
    | .select, some _ =>
      { s with m := { s.m with slots := recv s.m.slots s.t },
               err := some .DeadlineExceeded, pc := .close false }
    | _, _ => s
  | .selectCancel =>
    match s.pc, s.cancelErr with
    | .select, some e => { s with err := some e, pc := .close true }
    | _, _ => s
  | .resume =>
    match s.pc with
    | .close deferred =>
      { s with done := true, closes := s.closes + 1,
               pc := if deferred then .stop else .exited }
    | .stop => { s with m := (Stop s.m s.t).1, pc := .exited }
    | _ => s

/-- The state after a sequence of events. -/
def run (s : Sys) : List Event → Sys
  | [] => s
  | e :: es => run (step s e) es

/-- What holds of the `mockCtx` at each point of the goroutine. -/
def Inv (s : Sys) : Prop :=
  match s.pc with
  | .select => s.done = false ∧ s.err = none ∧ s.closes = 0
  | .close deferred =>
    s.done = false ∧ s.closes = 0 ∧
      ((deferred = false ∧ s.err = some .DeadlineExceeded) ∨
       (deferred = true ∧ s.err = s.cancelErr ∧ s.cancelErr ≠ none))
  | .stop => s.done = true ∧ s.closes = 1 ∧ s.err = s.cancelErr ∧ s.cancelErr ≠ none
  | .exited =>
    s.done = true ∧ s.closes = 1 ∧
      (s.err = some .DeadlineExceeded ∨ (s.err = s.cancelErr ∧ s.cancelErr ≠ none))

/-- How far the goroutine is: 0 until `close(ctx.done)` has run, 1 once `done` is closed
and the deferred `t.Stop()` is left, 2 once it has returned. -/
def Pc.rank : Pc → Nat
  | .select => 0
  | .close _ => 0
  | .stop => 1
  | .exited => 2

/-- The states of a context whose goroutine has taken the case `<-cancelCtx.Done()` of its
`select` with cause `c`, `t` being its timer: `cancelCtx.Err()` and `ctx.err` are `c`, and
the goroutine is before the close, before the deferred `t.Stop()`, or has returned with
the timer stopped. -/
def Cancelled (c : Err) (t : Nat) (s : Sys) : Prop :=
  s.cancelErr = some c ∧ s.err = some c ∧ s.t = t ∧
    match s.pc with
    | .select => False
    | .close deferred => deferred = true ∧ s.done = false
    | .stop => s.done = true
    | .exited => s.done = true ∧ ∀ e ∈ s.m.pending, e.seq ≠ t

/-! ## The scenario of `TestContext`, with the clock counting seconds from `mockTime` -/

/-- The engine after a timer due at 10 was created in `NewMock 0`. -/
def testMock : Mock :=
  { now := 0, pending := [{ seq := 0, fireAt := 10, period := 0, isFunc := false }],
    nextSeq := 1, slots := [], locked := false }

/-- The `mockCtx` with deadline 10 derived from `context.Background()`, and its timer. -/
def testDerived : Derived :=
  { ctx := .mockCtx (.cancelCtx Background none) 10 false none, waiter := some 0 }

/-- The run-time state of that context once its goroutine is started. -/
def testSys : Sys :=
  { m := testMock, parent := Background, cancelErr := none, deadline := 10, done := false,
    err := none, t := 0, pc := .select, closes := 0 }

/-- The context `ctx1` of the test at the time the chained contexts are derived from it:
deadline 10, resolved with `context.DeadlineExceeded`. -/
def testCtx1 : Context :=
  .mockCtx (.cancelCtx Background none) 10 true (some .DeadlineExceeded)

/-! ## Facts about the firing pass -/

theorem earliest_mem : ∀ {l : List Entry} {e : Entry}, earliest l = some e → e ∈ l := by
  intro l
  induction l with
  | nil => intro e h; simp [earliest] at h
  | cons a as ih =>
    intro e h
    unfold earliest at h
    cases hx : earliest as with
    | none =>
      rw [hx] at h
      simp at h
      simp [h]
    | some x =>
      rw [hx] at h
      simp only at h
      split at h
      · have hxe : x = e := by simpa using h
        subst hxe
        exact List.mem_cons_of_mem _ (ih hx)
      · have hae : a = e := by simpa using h
        simp [hae]

theorem earliest_eq_none : ∀ {l : List Entry}, earliest l = none → l = [] := by
  intro l
  cases l with
  | nil => intro _; rfl
  | cons a as =>
    intro h
    unfold earliest at h
    cases hx : earliest as with
    | none => rw [hx] at h; simp at h
    | some x =>
      rw [hx] at h
      simp only at h
      split at h <;> simp at h

theorem nextDue_mem {m : Mock} {e : Entry} (h : nextDue m = some e) :
    e ∈ m.pending ∧ e.fireAt ≤ m.now := by
  have := earliest_mem h
  simpa [List.mem_filter] using this

theorem nextDue_none {m : Mock} (h : nextDue m = none) :
    ∀ e ∈ m.pending, ¬ e.fireAt ≤ m.now := by
  intro e he hle
  have h0 := earliest_eq_none h
  have : e ∈ m.pending.filter (fun e => e.fireAt ≤ m.now) := by
    simp [List.mem_filter, he, hle]
  rw [h0] at this
  simp at this

theorem ticks_congr (now : Int) (p : Int) (hp : 0 ≤ p) :
    ∀ (n1 n2 : Nat) (f : Int),
      (f ≤ now → (now - f).toNat + 1 ≤ n1) → (f ≤ now → (now - f).toNat + 1 ≤ n2) →
      ticks n1 now f p = ticks n2 now f p := by
  intro n1
  induction n1 with
  | zero =>
    intro n2 f h1 _
    have hf : ¬ f ≤ now := fun h => by have := h1 h; omega
    cases n2 with
    | zero => rfl
    | succ k => simp [ticks, hf]
  | succ k ih =>
    intro n2 f h1 h2
    cases n2 with
    | zero =>
      have hf : ¬ f ≤ now := fun h => by have := h2 h; omega
      simp [ticks, hf]
    | succ j =>
      unfold ticks
      by_cases hf : f ≤ now
      · by_cases hp0 : p = 0
        · simp [hf, hp0]
        · simp only [hf, hp0, if_true, if_false]
          congr 1
          have hp1 : 1 ≤ p := by omega
          apply ih
          · intro h; have := h1 hf; omega
          · intro h; have := h2 hf; omega
      · simp [hf]

theorem expected_of_not_due {now : Int} {e : Entry} (h : ¬ e.fireAt ≤ now) :
    expected now e = [] := by
  simp [expected, fuelOf, h, ticks]

theorem expected_step {now : Int} {e : Entry} (hdue : e.fireAt ≤ now) (hp : 0 ≤ e.period) :
    expected now e =
      e.fireAt :: (if e.period = 0 then []
        else expected now { e with fireAt := e.fireAt + e.period }) := by
  unfold expected
  have hf : fuelOf now e = (now - e.fireAt).toNat + 1 := by simp [fuelOf, hdue]
  rw [hf]
  show ticks ((now - e.fireAt).toNat + 1) now e.fireAt e.period = _
  rw [ticks]
  simp only [hdue, if_true]
  by_cases hp0 : e.period = 0
  · simp [hp0]
  · simp only [hp0, if_false]
    congr 1
    have hp1 : (1 : Int) ≤ e.period := by
      have h0 : (0 : Int) ≤ e.period := hp
      have h1 : e.period ≠ (0 : Int) := hp0
      omega
    have hd : (e.fireAt : Int) ≤ now := hdue
    apply ticks_congr now e.period hp
    · intro h
      have h' : (e.fireAt : Int) + e.period ≤ now := h
      omega
    · intro h; simp only [fuelOf]; simp [h]

theorem filter_ne_self {l : List Entry} {q : Nat} (h : ∀ x ∈ l, x.seq ≠ q) :
    l.filter (fun x => x.seq ≠ q) = l := by
  rw [List.filter_eq_self]
  intro x hx
  simpa using h x hx

theorem map_rearm_self {l : List Entry} {q : Nat} (h : ∀ x ∈ l, x.seq ≠ q) :
    l.map (fun x => if x.seq = q then { x with fireAt := x.fireAt + x.period } else x) = l := by
  induction l with
  | nil => rfl
  | cons a as ih =>
    have ha : a.seq ≠ q := h a (List.mem_cons_self _ _)
    have has : ∀ x ∈ as, x.seq ≠ q := fun x hx => h x (List.mem_cons_of_mem _ hx)
    simp only [List.map_cons, ha, if_false, ih has]

theorem rearm_decomp {l : List Entry} {e : Entry} (hnd : (l.map Entry.seq).Nodup)
    (he : e ∈ l) :
    ∃ l1 l2, l = l1 ++ e :: l2 ∧ (∀ x ∈ l1, x.seq ≠ e.seq) ∧ (∀ x ∈ l2, x.seq ≠ e.seq) ∧
      rearm l e =
        l1 ++ (if e.period = 0 then [] else [{ e with fireAt := e.fireAt + e.period }]) ++ l2 := by
  obtain ⟨l1, l2, rfl⟩ := List.append_of_mem he
  have h1 : ∀ x ∈ l1, x.seq ≠ e.seq := by
    intro x hx hxe
    rw [List.map_append, List.map_cons] at hnd
    have hdis := (List.nodup_append.mp hnd).2.2
    have hx1 : x.seq ∈ l1.map Entry.seq := List.mem_map_of_mem _ hx
    exact hdis hx1 (by simp [hxe])
  have h2 : ∀ x ∈ l2, x.seq ≠ e.seq := by
    intro x hx hxe
    rw [List.map_append, List.map_cons] at hnd
    have hc := (List.nodup_append.mp hnd).2.1
    have hx2 : x.seq ∈ l2.map Entry.seq := List.mem_map_of_mem _ hx
    rw [List.nodup_cons] at hc
    exact hc.1 (hxe ▸ hx2)
  refine ⟨l1, l2, rfl, h1, h2, ?_⟩
  unfold rearm
  by_cases hp : e.period = 0
  · simp only [hp, if_true, List.filter_append, List.append_nil]
    rw [filter_ne_self h1, List.filter_cons, filter_ne_self h2]
    simp
  · simp only [hp, if_false, List.map_append, List.map_cons, if_true]
    rw [map_rearm_self h1, map_rearm_self h2]
    simp

theorem expectedOf_append (now : Int) (q : Nat) (l1 l2 : List Entry) :
    expectedOf now q (l1 ++ l2) = expectedOf now q l1 ++ expectedOf now q l2 := by
  induction l1 with
  | nil => rfl
  | cons a as ih =>
    show expectedOf now q (a :: (as ++ l2)) = _
    simp only [expectedOf]
    split
    · rw [ih, List.append_assoc]
    · exact ih

theorem expectedOf_nil_of_ne {now : Int} {q : Nat} {l : List Entry}
    (h : ∀ x ∈ l, x.seq ≠ q) : expectedOf now q l = [] := by
  induction l with
  | nil => rfl
  | cons a as ih =>
    have ha : a.seq ≠ q := h a (List.mem_cons_self _ _)
    simp only [expectedOf, ha, if_false]
    exact ih (fun x hx => h x (List.mem_cons_of_mem _ hx))

theorem expectedOf_nil_of_not_due {now : Int} {q : Nat} {l : List Entry}
    (h : ∀ x ∈ l, ¬ x.fireAt ≤ now) : expectedOf now q l = [] := by
  induction l with
  | nil => rfl
  | cons a as ih =>
    have ha := expected_of_not_due (h a (List.mem_cons_self _ _))
    have ias := ih (fun x hx => h x (List.mem_cons_of_mem _ hx))
    simp [expectedOf, ha, ias]

theorem expectedOf_rearm {now : Int} {q : Nat} {l : List Entry} {e : Entry}
    (hnd : (l.map Entry.seq).Nodup) (he : e ∈ l) (hdue : e.fireAt ≤ now)
    (hp : 0 ≤ e.period) :
    expectedOf now q l =
      (if e.seq = q then [e.fireAt] else []) ++ expectedOf now q (rearm l e) := by
  obtain ⟨l1, l2, hl, h1, h2, hr⟩ := rearm_decomp hnd he
  rw [hr, hl]
  simp only [expectedOf_append, expectedOf]
  by_cases hq : e.seq = q
  · subst hq
    rw [expectedOf_nil_of_ne h1, expectedOf_nil_of_ne h2, expected_step hdue hp]
    by_cases hp0 : e.period = 0
    · simp [hp0, expectedOf]
    · simp [hp0, expectedOf]
  · by_cases hp0 : e.period = 0
    · simp [hq, hp0, expectedOf]
    · simp [hq, hp0, expectedOf]

theorem fuelOf_rearm_lt {now : Int} {e : Entry} (hdue : e.fireAt ≤ now) (hp : 0 ≤ e.period)
    (hp0 : e.period ≠ 0) :
    fuelOf now { e with fireAt := e.fireAt + e.period } < fuelOf now e := by
  simp only [fuelOf, hdue, if_true]
  split <;> omega

theorem sum_fuelOf_rearm {now : Int} {l : List Entry} {e : Entry}
    (hnd : (l.map Entry.seq).Nodup) (he : e ∈ l) (hdue : e.fireAt ≤ now)
    (hp : 0 ≤ e.period) :
    ((rearm l e).map (fuelOf now)).sum < (l.map (fuelOf now)).sum := by
  obtain ⟨l1, l2, hl, _, _, hr⟩ := rearm_decomp hnd he
  rw [hr, hl]
  by_cases hp0 : e.period = 0
  · have : 0 < fuelOf now e := by simp [fuelOf, hdue]
    simp only [hp0, if_true, List.append_nil, List.map_append, List.map_cons, List.sum_append,
      List.sum_cons]
    omega
  · have := fuelOf_rearm_lt hdue hp hp0
    simp only [hp0, if_false, List.map_append, List.map_cons, List.sum_append, List.sum_cons,
      List.map_nil, List.sum_nil]
    omega

theorem rearm_nodup {l : List Entry} {e : Entry} (hnd : (l.map Entry.seq).Nodup) :
    ((rearm l e).map Entry.seq).Nodup := by
  unfold rearm
  split
  · exact hnd.sublist ((List.filter_sublist l).map Entry.seq)
  · have : (l.map (fun x => if x.seq = e.seq then
        { x with fireAt := x.fireAt + x.period } else x)).map Entry.seq = l.map Entry.seq := by
      rw [List.map_map]
      apply List.map_congr_left
      intro x _
      simp only [Function.comp]
      split <;> rfl
    rw [this]
    exact hnd

theorem rearm_period {l : List Entry} {e : Entry} (h : ∀ x ∈ l, 0 ≤ x.period) :
    ∀ x ∈ rearm l e, 0 ≤ x.period := by
  intro x hx
  unfold rearm at hx
  split at hx
  · exact h x (List.mem_of_mem_filter hx)
  · rw [List.mem_map] at hx
    obtain ⟨y, hy, hyx⟩ := hx
    have := h y hy
    split at hyx <;> (subst hyx; simpa using this)

theorem not_due_of_sum_zero {now : Int} {l : List Entry}
    (h : (l.map (fuelOf now)).sum = 0) : ∀ x ∈ l, ¬ x.fireAt ≤ now := by
  induction l with
  | nil => intro x hx; simp at hx
  | cons a as ih =>
    simp only [List.map_cons, List.sum_cons] at h
    intro x hx hle
    rcases List.mem_cons.mp hx with rfl | hx'
    · have : 0 < fuelOf now x := by simp [fuelOf, hle]
      omega
    · exact ih (by omega) x hx' hle

theorem firingsOf_cons (q : Nat) (a : Nat × Int) (log : List (Nat × Int)) :
    firingsOf q (a :: log) = (if a.1 = q then [a.2] else []) ++ firingsOf q log := by
  unfold firingsOf
  by_cases h : a.1 = q <;> simp [List.filter_cons, h]

/-- With the bound `fuel`, the firing pass delivers to every entry exactly the timestamps
it is due, in order. -/
theorem firingsOf_fireLoop :
    ∀ (n : Nat) (m : Mock), (m.pending.map Entry.seq).Nodup →
      (∀ e ∈ m.pending, 0 ≤ e.period) → fuel m ≤ n →
      ∀ q, firingsOf q (fireLoop n m).2 = expectedOf m.now q m.pending := by
  intro n
  induction n with
  | zero =>
    intro m _ _ hf q
    have h0 : (m.pending.map (fuelOf m.now)).sum = 0 := by unfold fuel at hf; omega
    rw [expectedOf_nil_of_not_due (not_due_of_sum_zero h0)]
    rfl
  | succ k ih =>
    intro m hnd hper hf q
    unfold fireLoop
    cases hx : nextDue m with
    | none =>
      simp only
      rw [expectedOf_nil_of_not_due (nextDue_none hx)]
      rfl
    | some e =>
      simp only
      obtain ⟨he, hdue⟩ := nextDue_mem hx
      have hlt := @sum_fuelOf_rearm m.now m.pending e hnd he hdue (hper e he)
      have hf' : fuel (fire m e) ≤ k := by
        unfold fuel at hf ⊢
        simp only [fire]
        omega
      have := ih (fire m e) (rearm_nodup hnd) (rearm_period hper) hf' q
      rw [firingsOf_cons, this]
      exact (expectedOf_rearm hnd he hdue (hper e he)).symm

/-- With the bound `fuel`, the firing pass ends because nothing is due any more. -/
theorem fireLoop_complete :
    ∀ (n : Nat) (m : Mock), (m.pending.map Entry.seq).Nodup →
      (∀ e ∈ m.pending, 0 ≤ e.period) → fuel m ≤ n →
      nextDue (fireLoop n m).1 = none := by
  intro n
  induction n with
  | zero =>
    intro m _ _ hf
    have h0 : (m.pending.map (fuelOf m.now)).sum = 0 := by unfold fuel at hf; omega
    have hnd := not_due_of_sum_zero h0
    simp only [fireLoop, nextDue]
    have : m.pending.filter (fun e => e.fireAt ≤ m.now) = [] := by
      rw [List.filter_eq_nil_iff]
      intro x hx
      simpa using hnd x hx
    rw [this]
    rfl
  | succ k ih =>
    intro m hnd hper hf
    unfold fireLoop
    cases hx : nextDue m with
    | none => simpa using hx
    | some e =>
      simp only
      obtain ⟨he, hdue⟩ := nextDue_mem hx
      have hlt := @sum_fuelOf_rearm m.now m.pending e hnd he hdue (hper e he)
      have hf' : fuel (fire m e) ≤ k := by
        unfold fuel at hf ⊢
        simp only [fire]
        omega
      exact ih (fire m e) (rearm_nodup hnd) (rearm_period hper) hf'

theorem fireLoop_now : ∀ (n : Nat) (m : Mock), (fireLoop n m).1.now = m.now := by
  intro n
  induction n with
  | zero => intro m; rfl
  | succ k ih =>
    intro m
    unfold fireLoop
    cases hx : nextDue m with
    | none => rfl
    | some e => simp only; rw [ih]; rfl

theorem lookup_send_self {slots : List (Nat × Int)} {q : Nat} {t : Int}
    (h : slots.lookup q = none) : (send slots q t).lookup q = some t := by
  simp [send, h, List.lookup_cons]

theorem lookup_send_of_some {slots : List (Nat × Int)} {q q' : Nat} {t v : Int}
    (h : slots.lookup q = some v) : (send slots q' t).lookup q = some v := by
  unfold send
  cases hq : slots.lookup q' with
  | some w => simpa using h
  | none =>
    have hne : (q == q') = false := by
      rw [beq_eq_false_iff_ne]
      intro hqq
      rw [hqq, hq] at h
      exact absurd h (by simp)
    simp only [List.lookup_cons, hne]
    exact h

theorem lookup_send_ne {slots : List (Nat × Int)} {q q' : Nat} {t : Int} (hne : q' ≠ q) :
    (send slots q' t).lookup q = slots.lookup q := by
  unfold send
  cases hq : slots.lookup q' with
  | some w => rfl
  | none =>
    have : (q == q') = false := by
      rw [beq_eq_false_iff_ne]
      exact fun h => hne h.symm
    simp only [List.lookup_cons, this]

theorem lookup_none_of_ne {slots : List (Nat × Int)} {q : Nat}
    (h : ∀ p ∈ slots, p.1 ≠ q) : slots.lookup q = none := by
  induction slots with
  | nil => rfl
  | cons a as ih =>
    obtain ⟨k, v⟩ := a
    have hk : k ≠ q := h (k, v) (List.mem_cons_self _ _)
    have : (q == k) = false := by
      rw [beq_eq_false_iff_ne]
      exact fun h => hk h.symm
    simp only [List.lookup_cons, this]
    exact ih (fun p hp => h p (List.mem_cons_of_mem _ hp))

theorem fire_slot_of_some {m : Mock} {e : Entry} {q : Nat} {v : Int}
    (h : m.slots.lookup q = some v) : (fire m e).slots.lookup q = some v := by
  simp only [fire]
  split
  · exact h
  · exact lookup_send_of_some h

/-- The firing pass never overwrites an occupied slot. -/
theorem fireLoop_slot_kept :
    ∀ (n : Nat) (m : Mock) (q : Nat) (v : Int), m.slots.lookup q = some v →
      (fireLoop n m).1.slots.lookup q = some v := by
  intro n
  induction n with
  | zero => intro m q v h; exact h
  | succ k ih =>
    intro m q v h
    unfold fireLoop
    cases hx : nextDue m with
    | none => exact h
    | some e => exact ih (fire m e) q v (fire_slot_of_some h)

theorem rearm_isFunc {l : List Entry} {e : Entry} {q : Nat}
    (h : ∀ x ∈ l, x.seq = q → x.isFunc = false) :
    ∀ x ∈ rearm l e, x.seq = q → x.isFunc = false := by
  intro x hx
  unfold rearm at hx
  split at hx
  · exact h x (List.mem_of_mem_filter hx)
  · rw [List.mem_map] at hx
    obtain ⟨y, hy, hyx⟩ := hx
    have := h y hy
    split at hyx <;> (subst hyx; simpa using this)

/-- An empty slot of a timer or ticker holds, after the firing pass, the first timestamp
the entry observed in it. -/
theorem fireLoop_slot_first :
    ∀ (n : Nat) (m : Mock) (q : Nat), m.slots.lookup q = none →
      (∀ x ∈ m.pending, x.seq = q → x.isFunc = false) →
      (fireLoop n m).1.slots.lookup q = (firingsOf q (fireLoop n m).2).head? := by
  intro n
  induction n with
  | zero => intro m q h _; simpa [fireLoop, firingsOf] using h
  | succ k ih =>
    intro m q h hfun
    unfold fireLoop
    cases hx : nextDue m with
    | none => simpa [firingsOf] using h
    | some e =>
      simp only
      obtain ⟨he, _⟩ := nextDue_mem hx
      rw [firingsOf_cons]
      by_cases hq : e.seq = q
      · have hf : e.isFunc = false := hfun e he hq
        have hs : (fire m e).slots.lookup q = some e.fireAt := by
          simp only [fire, hf]
          rw [hq]
          exact lookup_send_self h
        rw [fireLoop_slot_kept k (fire m e) q e.fireAt hs]
        simp [hq]
      · have hs : (fire m e).slots.lookup q = none := by
          simp only [fire]
          split
          · exact h
          · rw [lookup_send_ne hq]; exact h
        have := ih (fire m e) q hs (rearm_isFunc hfun)
        simp only [hq, if_false, List.nil_append]
        exact this

theorem ticks_range (now p : Int) (hp : 0 < p) :
    ∀ (k n : Nat) (f : Int), now = f + (k : Int) * p - p → k ≤ n →
      ticks n now f p = (List.range k).map (fun (i : Nat) => f + (i : Int) * p) := by
  intro k
  induction k with
  | zero =>
    intro n f hnow _
    have hf : ¬ f ≤ now := by
      simp only [Nat.cast_zero, zero_mul, add_zero] at hnow
      omega
    cases n with
    | zero => rfl
    | succ j => simp [ticks, hf]
  | succ k ih =>
    intro n f hnow hn
    cases n with
    | zero => omega
    | succ j =>
      have hkp : 0 ≤ (k : Int) * p := by positivity
      have hnow' : now = f + (k : Int) * p := by
        rw [hnow]; push_cast; ring
      have hf : f ≤ now := by omega
      have hp0 : p ≠ 0 := by omega
      rw [ticks]
      simp only [hf, hp0, if_true, if_false]
      rw [ih j (f + p) (by rw [hnow']; ring) (by omega)]
      rw [List.range_succ_eq_map, List.map_cons, List.map_map]
      congr 1
      · simp
      · apply List.map_congr_left
        intro i _
        simp only [Function.comp, Nat.succ_eq_add_one]
        push_cast
        ring

theorem expectedOf_at_min {t : Int} {q : Nat} :
    ∀ {l : List Entry}, (l.map Entry.seq).Nodup → (∀ e ∈ l, 0 ≤ e.period) →
      (∀ e ∈ l, t ≤ e.fireAt) →
      expectedOf t q l = if ∃ e ∈ l, e.seq = q ∧ e.fireAt = t then [t] else [] := by
  intro l
  induction l with
  | nil => intro _ _ _; simp [expectedOf]
  | cons a as ih =>
    intro hnd hper hmin
    rw [List.map_cons, List.nodup_cons] at hnd
    have iha := ih hnd.2 (fun e he => hper e (List.mem_cons_of_mem _ he))
      (fun e he => hmin e (List.mem_cons_of_mem _ he))
    have hpa : 0 ≤ a.period := hper a (List.mem_cons_self _ _)
    have hma : t ≤ a.fireAt := hmin a (List.mem_cons_self _ _)
    simp only [expectedOf]
    by_cases hq : a.seq = q
    · have hno : ∀ x ∈ as, x.seq ≠ q := by
        intro x hx hxq
        exact hnd.1 (by rw [hq, ← hxq]; exact List.mem_map_of_mem _ hx)
      rw [if_pos hq, expectedOf_nil_of_ne hno, List.append_nil]
      by_cases hat : a.fireAt = t
      · have hdue : a.fireAt ≤ t := by omega
        rw [expected_step hdue hpa]
        have hex : ∃ e ∈ a :: as, e.seq = q ∧ e.fireAt = t :=
          ⟨a, List.mem_cons_self _ _, hq, hat⟩
        rw [if_pos hex]
        by_cases hp0 : a.period = 0
        · simp [hp0, hat]
        · have hnd2 : ¬ (a.fireAt + a.period ≤ t) := by omega
          rw [if_neg hp0, expected_of_not_due (by simpa using hnd2), hat]
      · have hnd2 : ¬ a.fireAt ≤ t := by omega
        rw [expected_of_not_due hnd2]
        have hex : ¬ ∃ e ∈ a :: as, e.seq = q ∧ e.fireAt = t := by
          rintro ⟨e, he, heq, het⟩
          rcases List.mem_cons.mp he with rfl | he'
          · exact hat het
          · exact hno e he' heq
        rw [if_neg hex]
    · rw [if_neg hq, iha]
      have hiff : (∃ e ∈ a :: as, e.seq = q ∧ e.fireAt = t) ↔
          (∃ e ∈ as, e.seq = q ∧ e.fireAt = t) := by
        constructor
        · rintro ⟨e, he, heq, het⟩
          rcases List.mem_cons.mp he with rfl | he'
          · exact absurd heq hq
          · exact ⟨e, he', heq, het⟩
        · rintro ⟨e, he, heq, het⟩
          exact ⟨e, List.mem_cons_of_mem _ he, heq, het⟩
      simp only [hiff]

theorem minFireAt_eq_none : ∀ {l : List Entry}, minFireAt l = none → l = [] := by
  intro l
  cases l with
  | nil => intro _; rfl
  | cons a as =>
    intro h
    unfold minFireAt at h
    cases hx : minFireAt as with
    | none => rw [hx] at h; simp at h
    | some x => rw [hx] at h; simp at h

theorem minFireAt_spec :
    ∀ {l : List Entry} {t : Int}, minFireAt l = some t →
      (∃ e ∈ l, e.fireAt = t) ∧ ∀ e ∈ l, t ≤ e.fireAt := by
  intro l
  induction l with
  | nil => intro t h; simp [minFireAt] at h
  | cons a as ih =>
    intro t h
    unfold minFireAt at h
    cases hx : minFireAt as with
    | none =>
      rw [hx] at h
      have hat : a.fireAt = t := by simpa using h
      have has := minFireAt_eq_none hx
      subst has
      exact ⟨⟨a, List.mem_cons_self _ _, hat⟩, by intro e he; simp at he; subst he; omega⟩
    | some x =>
      rw [hx] at h
      have hat : min a.fireAt x = t := by simpa using h
      obtain ⟨⟨e, he, hex⟩, hmin⟩ := ih hx
      constructor
      · by_cases hle : a.fireAt ≤ x
        · exact ⟨a, List.mem_cons_self _ _, by omega⟩
        · exact ⟨e, List.mem_cons_of_mem _ he, by omega⟩
      · intro y hy
        rcases List.mem_cons.mp hy with rfl | hy'
        · omega
        · have := hmin y hy'
          omega

theorem WF_NewMock (t0 : Int) : WF (NewMock t0) :=
  ⟨by simp [NewMock], by simp [NewMock], by simp [NewMock], by simp [NewMock]⟩

theorem nodup_append_fresh {m : Mock} (hm : WF m) (e : Entry) (he : e.seq = m.nextSeq) :
    ((m.pending ++ [e]).map Entry.seq).Nodup := by
  rw [List.map_append, List.nodup_append]
  refine ⟨hm.nodup, by simp, ?_⟩
  intro a ha hb
  simp only [List.map_cons, List.map_nil, List.mem_singleton] at hb
  rw [List.mem_map] at ha
  obtain ⟨x, hx, hxa⟩ := ha
  have := hm.seq_lt x hx
  omega

/-! ## The goroutine keeps the invariant -/

theorem step_Inv (s : Sys) (e : Event) (h : Inv s) : Inv (step s e) := by
  obtain ⟨m, parent, cancelErr, deadline, done, err, t, pc, closes⟩ := s
  cases e
  case selectTimer =>
    cases pc <;> cases hl : m.slots.lookup t <;> simp only [step, hl, Inv] at h ⊢ <;>
      simp_all
  all_goals (rcases pc with _ | ⟨_ | _⟩ | _ | _ <;> cases cancelErr <;> simp_all [Inv, step])

theorem run_Inv : ∀ (es : List Event) (s : Sys), Inv s → Inv (run s es) := by
  intro es
  induction es with
  | nil => intro s h; exact h
  | cons e es ih => intro s h; exact ih (step s e) (step_Inv s e h)

/-- Once `done` is closed no step touches `done`, `err` or the number of closes. -/
theorem step_done (s : Sys) (e : Event) (h : Inv s) (hd : s.done = true) :
    (step s e).done = true ∧ (step s e).err = s.err ∧ (step s e).closes = s.closes := by
  obtain ⟨m, parent, cancelErr, deadline, done, err, t, pc, closes⟩ := s
  cases e
  case selectTimer =>
    cases pc <;> cases hl : m.slots.lookup t <;> simp only [step, hl, Inv] at h ⊢ <;>
      simp_all
  all_goals (rcases pc with _ | ⟨_ | _⟩ | _ | _ <;> cases cancelErr <;> simp_all [Inv, step])

theorem run_done : ∀ (es : List Event) (s : Sys), Inv s → s.done = true →
    (run s es).done = true ∧ (run s es).err = s.err ∧ (run s es).closes = s.closes := by
  intro es
  induction es with
  | nil => intro s _ hd; exact ⟨hd, rfl, rfl⟩
  | cons e es ih =>
    intro s h hd
    obtain ⟨h1, h2, h3⟩ := step_done s e h hd
    obtain ⟨g1, g2, g3⟩ := ih (step s e) (step_Inv s e h) h1
    exact ⟨g1, g2.trans h2, g3.trans h3⟩

/-! ## Facts about `deadlineContext` entered with the lock free -/

theorem deadlineContext_of_locked (m : Mock) (parent : Context) (deadline : Int)
    (h : m.locked = true) :
    deadlineContext m parent deadline = .blocked m (.deadlineContext parent deadline) := by
  simp [deadlineContext, Lock, h]

theorem deadlineContextBody_locked (m : Mock) (parent : Context) (deadline : Int) :
    (deadlineContextBody m parent deadline).1.locked = m.locked := by
  unfold deadlineContextBody
  cases parent.Deadline with
  | none => rfl
  | some pd =>
    simp only
    split <;> rfl

theorem deadlineContext_of_free (m : Mock) (parent : Context) (deadline : Int)
    (h : m.locked = false) :
    deadlineContext m parent deadline =
      .returned ({ (deadlineContextBody { m with locked := true } parent deadline).1 with
                     locked := false },
                 (deadlineContextBody { m with locked := true } parent deadline).2) := by
  have hb := deadlineContextBody_locked { m with locked := true } parent deadline
  simp only [deadlineContext, Lock, h, Unlock]
  simp [hb]

theorem deadlineContext_some {m m' : Mock} {parent : Context} {deadline : Int} {r : Derived}
    (h : deadlineContext m parent deadline = .returned (m', r)) :
    m.locked = false ∧
      r = (deadlineContextBody { m with locked := true } parent deadline).2 ∧
      m' = { (deadlineContextBody { m with locked := true } parent deadline).1 with
               locked := false } := by
  cases hl : m.locked with
  | true => rw [deadlineContext_of_locked m parent deadline hl] at h; exact absurd h (by simp)
  | false =>
    rw [deadlineContext_of_free m parent deadline hl] at h
    simp only [Outcome.returned.injEq, Prod.mk.injEq] at h
    exact ⟨rfl, h.2.symm, h.1.symm⟩

/-- Entered with the lock free, `deadlineContext` returns, with the lock free again, a
context that reports the later of the parent's deadline and `deadline`: the test of
context.go line 33 is `!deadline.After(pd)`. -/
theorem deadlineContext_Deadline (m : Mock) (parent : Context) (deadline : Int)
    (h : m.locked = false) :
    ∃ m' r, deadlineContext m parent deadline = .returned (m', r) ∧ m'.locked = false ∧
      r.ctx.Deadline =
        some (match parent.Deadline with
              | some pd => max pd deadline
              | none => deadline) := by
  refine ⟨_, _, deadlineContext_of_free m parent deadline h, rfl, ?_⟩
  unfold deadlineContextBody
  cases hp : parent.Deadline with
  | none => simp [Context.Deadline]
  | some pd =>
    simp only
    by_cases hlt : pd < deadline
    · simp only [hlt, not_true_eq_false, if_false, Context.Deadline]
      rw [max_eq_right (le_of_lt hlt)]
    · simp only [hlt, not_false_eq_true, if_true, WithCancel, Context.Deadline, hp]
      rw [max_eq_left (not_lt.mp hlt)]

/-- Entered with the lock free, `deadlineContext` appends one entry due at `deadline` when
the parent has no deadline or an earlier one, and otherwise (the parent's deadline is at or
after `deadline`) leaves `pending` as it is and returns `context.WithCancel(parent)`. -/
theorem deadlineContext_pending (m : Mock) (parent : Context) (deadline : Int)
    (h : m.locked = false) :
    ∃ m' r, deadlineContext m parent deadline = .returned (m', r) ∧
      ((parent.Deadline = none ∨ ∃ pd, parent.Deadline = some pd ∧ pd < deadline) →
        m'.pending = m.pending ++
          [{ seq := m.nextSeq, fireAt := deadline, period := 0, isFunc := false }] ∧
        r.waiter = some m.nextSeq) ∧
      ((∃ pd, parent.Deadline = some pd ∧ deadline ≤ pd) →
        m'.pending = m.pending ∧ r.ctx = WithCancel parent ∧ r.waiter = none) := by
  refine ⟨_, _, deadlineContext_of_free m parent deadline h, ?_, ?_⟩
  · intro hc
    unfold deadlineContextBody
    rcases hc with hn | ⟨pd, hpd, hlt⟩
    · simp [hn, newTimerFunc]
    · simp [hpd, hlt, newTimerFunc]
  · rintro ⟨pd, hpd, hle⟩
    unfold deadlineContextBody
    have : ¬ pd < deadline := by omega
    simp [hpd, this]

/-! ## Well-formed states are kept by the engine's constructors -/

theorem WF_newTimerFunc {m : Mock} (hm : WF m) (deadline : Int) (isFunc : Bool) :
    WF (newTimerFunc m deadline isFunc).1 := by
  refine ⟨nodup_append_fresh hm _ rfl, ?_, ?_, ?_⟩
  · intro e he
    simp only [newTimerFunc, List.mem_append, List.mem_singleton] at he ⊢
    rcases he with he | rfl
    · have := hm.seq_lt e he; omega
    · simp
  · intro e he
    simp only [newTimerFunc, List.mem_append, List.mem_singleton] at he
    rcases he with he | rfl
    · exact hm.period_nonneg e he
    · simp
  · intro p hp
    have := hm.slot_lt p hp
    simp only [newTimerFunc]
    omega

theorem WF_NewTimer {m : Mock} (hm : WF m) (d : Int) : WF (NewTimer m d).1 :=
  WF_newTimerFunc hm _ _

theorem WF_NewTicker {m : Mock} (hm : WF m) (d : Int) (hd : 0 ≤ d) : WF (NewTicker m d).1 := by
  refine ⟨nodup_append_fresh hm _ rfl, ?_, ?_, ?_⟩
  · intro e he
    simp only [NewTicker, List.mem_append, List.mem_singleton] at he ⊢
    rcases he with he | rfl
    · have := hm.seq_lt e he; omega
    · simp
  · intro e he
    simp only [NewTicker, List.mem_append, List.mem_singleton] at he
    rcases he with he | rfl
    · exact hm.period_nonneg e he
    · exact hd
  · intro p hp
    have := hm.slot_lt p hp
    simp only [NewTicker]
    omega

theorem rearm_seq {l : List Entry} {e : Entry} :
    ∀ x ∈ rearm l e, ∃ y ∈ l, y.seq = x.seq := by
  intro x hx
  unfold rearm at hx
  split at hx
  · exact ⟨x, List.mem_of_mem_filter hx, rfl⟩
  · rw [List.mem_map] at hx
    obtain ⟨y, hy, hyx⟩ := hx
    refine ⟨y, hy, ?_⟩
    split at hyx <;> (subst hyx; rfl)

theorem send_keys {slots : List (Nat × Int)} {q : Nat} {t : Int} :
    ∀ p ∈ send slots q t, p ∈ slots ∨ p.1 = q := by
  intro p hp
  unfold send at hp
  split at hp
  · exact Or.inl hp
  · rcases List.mem_cons.mp hp with rfl | hp'
    · exact Or.inr rfl
    · exact Or.inl hp'

theorem WF_fire {m : Mock} {e : Entry} (hm : WF m) (he : e ∈ m.pending) : WF (fire m e) := by
  refine ⟨rearm_nodup hm.nodup, ?_, rearm_period hm.period_nonneg, ?_⟩
  · intro x hx
    obtain ⟨y, hy, hyx⟩ := rearm_seq x hx
    have := hm.seq_lt y hy
    show x.seq < m.nextSeq
    omega
  · intro p hp
    show p.1 < m.nextSeq
    simp only [fire] at hp
    split at hp
    · exact hm.slot_lt p hp
    · rcases send_keys p hp with hp' | hp'
      · exact hm.slot_lt p hp'
      · rw [hp']; exact hm.seq_lt e he

theorem WF_fireLoop : ∀ (n : Nat) (m : Mock), WF m → WF (fireLoop n m).1 := by
  intro n
  induction n with
  | zero => intro m hm; exact hm
  | succ k ih =>
    intro m hm
    unfold fireLoop
    cases hx : nextDue m with
    | none => exact hm
    | some e => exact ih (fire m e) (WF_fire hm (nextDue_mem hx).1)

/-- The engine's operations keep states well-formed, so every state reached from `NewMock`
by `NewTimer`, `NewTicker` with a period that is not negative, `Add`, `AddNext` and `Stop`
is well-formed. -/
theorem WF_Add {m : Mock} (hm : WF m) (delta : Int) : WF (Add m delta).1 :=
  WF_fireLoop _ _ ⟨hm.nodup, hm.seq_lt, hm.period_nonneg, hm.slot_lt⟩

theorem WF_AddNext {m : Mock} (hm : WF m) : WF (AddNext m).1 := by
  unfold AddNext
  cases minFireAt m.pending with
  | none => exact hm
  | some t => exact WF_fireLoop _ _ ⟨hm.nodup, hm.seq_lt, hm.period_nonneg, hm.slot_lt⟩

theorem WF_Stop {m : Mock} (hm : WF m) (seq : Nat) : WF (Stop m seq).1 :=
  ⟨hm.nodup.sublist ((List.filter_sublist m.pending).map Entry.seq),
    fun e he => hm.seq_lt e (List.mem_of_mem_filter he),
    fun e he => hm.period_nonneg e (List.mem_of_mem_filter he),
    hm.slot_lt⟩

/-! ## The claims about the engine -/

/-- C7. In every well-formed engine state at time `t0`, after `NewTimer(d)` and then
`Add(d')` with `d' >= d`, the timer has fired exactly once, the timestamp it observed and
the one its notification slot holds is `t0 + d`, and the clock stands at `t0 + d'`. -/
theorem NewTimer_Add_delivers_fireAt (m : Mock) (hm : WF m) (d d' : Int) (h : d ≤ d') :
    firingsOf (NewTimer m d).2 (Add (NewTimer m d).1 d').2 = [m.now + d] ∧
    (Add (NewTimer m d).1 d').1.slots.lookup (NewTimer m d).2 = some (m.now + d) ∧
    (Add (NewTimer m d).1 d').1.now = m.now + d' := by
  let e0 : Entry := { seq := m.nextSeq, fireAt := m.now + d, period := 0, isFunc := false }
  let m1 : Mock := { now := m.now + d', pending := m.pending ++ [e0],
                     nextSeq := m.nextSeq + 1, slots := m.slots, locked := m.locked }
  have hAdd : Add (NewTimer m d).1 d' = fireLoop (fuel m1) m1 := rfl
  have hq : (NewTimer m d).2 = m.nextSeq := rfl
  have hnd : (m1.pending.map Entry.seq).Nodup := nodup_append_fresh hm e0 rfl
  have hper : ∀ e ∈ m1.pending, 0 ≤ e.period := (WF_NewTimer hm d).period_nonneg
  have hne : ∀ x ∈ m.pending, x.seq ≠ m.nextSeq := by
    intro x hx
    have := hm.seq_lt x hx
    omega
  have hfire : firingsOf m.nextSeq (fireLoop (fuel m1) m1).2 = [m.now + d] := by
    rw [firingsOf_fireLoop (fuel m1) m1 hnd hper (le_refl _) m.nextSeq]
    show expectedOf (m.now + d') m.nextSeq (m.pending ++ [e0]) = _
    rw [expectedOf_append, expectedOf_nil_of_ne hne]
    have hdue : e0.fireAt ≤ m.now + d' := by
      show m.now + d ≤ m.now + d'
      omega
    have hstep := expected_step hdue (le_refl (0 : Int))
    simp only [expectedOf, if_true, List.nil_append, List.append_nil]
    rw [hstep]
    simp [e0]
  rw [hAdd, hq]
  refine ⟨hfire, ?_, ?_⟩
  · have hslot : m1.slots.lookup m.nextSeq = none := by
      apply lookup_none_of_ne
      intro p hp
      have := hm.slot_lt p hp
      omega
    have hfun : ∀ x ∈ m1.pending, x.seq = m.nextSeq → x.isFunc = false := by
      intro x hx hxq
      have hx' : x ∈ m.pending ++ [e0] := hx
      rw [List.mem_append, List.mem_singleton] at hx'
      rcases hx' with hx' | rfl
      · exact absurd hxq (hne x hx')
      · rfl
    rw [fireLoop_slot_first (fuel m1) m1 m.nextSeq hslot hfun, hfire]
    rfl
  · rw [fireLoop_now]

theorem NewTimer_Add_delivers_fireAt_witness :
    WF (NewMock 100) ∧ (15 : Int) ≤ 25 ∧
      firingsOf (NewTimer (NewMock 100) 15).2 (Add (NewTimer (NewMock 100) 15).1 25).2 = [115] ∧
      (Add (NewTimer (NewMock 100) 15).1 25).1.slots.lookup (NewTimer (NewMock 100) 15).2
        = some 115 ∧
      (Add (NewTimer (NewMock 100) 15).1 25).1.now = 125 :=
  ⟨WF_NewMock 100, by decide,
    NewTimer_Add_delivers_fireAt (NewMock 100) (WF_NewMock 100) 15 25 (by decide)⟩

/-- C8, as amended. In every well-formed engine state at time `t0`, after `NewTicker(p)`
with `p > 0`, a single `Add(k*p)` fires the ticker exactly `k` times, at the fire times
`t0+p, t0+2p, ..., t0+kp` in this order; and for `k >= 1` the ticker's notification slot
holds `t0+p` after the call, the first of them, the later sends having found the slot
occupied. -/
theorem NewTicker_Add_fires_k_times_slot_keeps_first (m : Mock) (hm : WF m) (p : Int)
    (hp : 0 < p) (k : Nat) :
    firingsOf (NewTicker m p).2 (Add (NewTicker m p).1 (k * p)).2 =
      (List.range k).map (fun (i : Nat) => m.now + ((i : Int) + 1) * p) ∧
    (1 ≤ k →
      (Add (NewTicker m p).1 (k * p)).1.slots.lookup (NewTicker m p).2 = some (m.now + p)) := by
  let e0 : Entry := { seq := m.nextSeq, fireAt := m.now + p, period := p, isFunc := false }
  let m1 : Mock := { now := m.now + k * p, pending := m.pending ++ [e0],
                     nextSeq := m.nextSeq + 1, slots := m.slots, locked := m.locked }
  have hAdd : Add (NewTicker m p).1 (k * p) = fireLoop (fuel m1) m1 := rfl
  have hq : (NewTicker m p).2 = m.nextSeq := rfl
  have hnd : (m1.pending.map Entry.seq).Nodup := nodup_append_fresh hm e0 rfl
  have hper : ∀ e ∈ m1.pending, 0 ≤ e.period := (WF_NewTicker hm p (le_of_lt hp)).period_nonneg
  have hne : ∀ x ∈ m.pending, x.seq ≠ m.nextSeq := by
    intro x hx
    have := hm.seq_lt x hx
    omega
  have hfire : firingsOf m.nextSeq (fireLoop (fuel m1) m1).2 =
      (List.range k).map (fun (i : Nat) => m.now + ((i : Int) + 1) * p) := by
    rw [firingsOf_fireLoop (fuel m1) m1 hnd hper (le_refl _) m.nextSeq]
    show expectedOf (m.now + k * p) m.nextSeq (m.pending ++ [e0]) = _
    rw [expectedOf_append, expectedOf_nil_of_ne hne]
    simp only [expectedOf, if_true, List.nil_append, List.append_nil]
    show ticks (fuelOf (m.now + k * p) e0) (m.now + k * p) (m.now + p) p = _
    have hfuel : k ≤ fuelOf (m.now + k * p) e0 := by
      cases k with
      | zero => omega
      | succ j =>
        have hj : (j : Int) ≤ (j : Int) * p := by nlinarith [Int.ofNat_nonneg j]
        have hdue : m.now + p ≤ m.now + ((j + 1 : Nat) : Int) * p := by
          push_cast
          nlinarith [Int.ofNat_nonneg j]
        simp only [fuelOf, e0, hdue, if_true]
        have : m.now + ((j + 1 : Nat) : Int) * p - (m.now + p) = (j : Int) * p := by
          push_cast
          ring
        rw [this]
        omega
    rw [ticks_range (m.now + k * p) p hp k _ (m.now + p) (by ring) hfuel]
    apply List.map_congr_left
    intro i _
    ring
  rw [hAdd, hq]
  refine ⟨hfire, ?_⟩
  intro hk
  have hslot : m1.slots.lookup m.nextSeq = none := by
    apply lookup_none_of_ne
    intro q hq'
    have := hm.slot_lt q hq'
    omega
  have hfun : ∀ x ∈ m1.pending, x.seq = m.nextSeq → x.isFunc = false := by
    intro x hx hxq
    have hx' : x ∈ m.pending ++ [e0] := hx
    rw [List.mem_append, List.mem_singleton] at hx'
    rcases hx' with hx' | rfl
    · exact absurd hxq (hne x hx')
    · rfl
  rw [fireLoop_slot_first (fuel m1) m1 m.nextSeq hslot hfun, hfire]
  cases k with
  | zero => omega
  | succ j =>
    rw [List.range_succ_eq_map]
    simp

theorem NewTicker_Add_fires_k_times_slot_keeps_first_witness :
    WF (NewMock 100) ∧ (0 : Int) < 5 ∧
      firingsOf (NewTicker (NewMock 100) 5).2 (Add (NewTicker (NewMock 100) 5).1 ((3 : Nat) * 5)).2 =
        (List.range 3).map (fun (i : Nat) => (NewMock 100).now + ((i : Int) + 1) * 5) ∧
      (Add (NewTicker (NewMock 100) 5).1 ((3 : Nat) * 5)).1.slots.lookup
          (NewTicker (NewMock 100) 5).2 = some ((NewMock 100).now + 5) :=
  ⟨WF_NewMock 100, by decide,
    (NewTicker_Add_fires_k_times_slot_keeps_first (NewMock 100) (WF_NewMock 100) 5
      (by decide) 3).1,
    (NewTicker_Add_fires_k_times_slot_keeps_first (NewMock 100) (WF_NewMock 100) 5
      (by decide) 3).2 (by decide)⟩

/-- C8, as stated, fails. A ticker of period 5 created at time 100 and a single `Add(15)`:
the ticker fires three times, at 105, 110 and 115, but its notification slot holds 105
alone after the call, and is empty once that is received: 110 and 115 were sent to an
occupied slot and dropped, so they are not delivered. -/
theorem ticker_single_Add_delivers_first_only :
    firingsOf 0 (Add (NewTicker (NewMock 100) 5).1 15).2 = [105, 110, 115] ∧
    (Add (NewTicker (NewMock 100) 5).1 15).1.slots = [(0, 105)] ∧
    recv (Add (NewTicker (NewMock 100) 5).1 15).1.slots 0 = [] ∧
    ((Add (NewTicker (NewMock 100) 5).1 15).1.slots.lookup 0).toList ≠ [105, 110, 115] := by
  decide

/-- C9. In every well-formed engine state, `AddNext()` with nothing pending returns the
state unchanged, a zero delta and no firing; with entries pending it sets `now` to the
minimum `fireAt` among them, returns that minimum less the previous `now`, and fires once
each entry whose `fireAt` is that minimum and no other entry. -/
theorem AddNext_fires_minimum_batch (m : Mock) (hm : WF m) :
    (m.pending = [] → AddNext m = (m, 0, [])) ∧
    (m.pending ≠ [] →
      ∃ t, (∃ e ∈ m.pending, e.fireAt = t) ∧ (∀ e ∈ m.pending, t ≤ e.fireAt) ∧
        (AddNext m).1.now = t ∧ (AddNext m).2.1 = t - m.now ∧
        ∀ q, firingsOf q (AddNext m).2.2 =
          if ∃ e ∈ m.pending, e.seq = q ∧ e.fireAt = t then [t] else []) := by
  constructor
  · intro h
    simp [AddNext, h, minFireAt]
  · intro hne
    cases hmin : minFireAt m.pending with
    | none => exact absurd (minFireAt_eq_none hmin) hne
    | some t =>
      obtain ⟨hex, hall⟩ := minFireAt_spec hmin
      let m1 : Mock := { m with now := t }
      have hA : AddNext m = ((fireLoop (fuel m1) m1).1, t - m.now, (fireLoop (fuel m1) m1).2) := by
        simp only [AddNext, hmin]
      refine ⟨t, hex, hall, ?_, ?_, ?_⟩
      · rw [hA]
        show (fireLoop (fuel m1) m1).1.now = t
        rw [fireLoop_now]
      · rw [hA]
      · intro q
        rw [hA]
        show firingsOf q (fireLoop (fuel m1) m1).2 = _
        rw [firingsOf_fireLoop (fuel m1) m1 hm.nodup hm.period_nonneg (le_refl _) q]
        exact expectedOf_at_min hm.nodup hm.period_nonneg hall

theorem AddNext_fires_minimum_batch_witness :
    WF (NewTimer (NewTicker (NewMock 100) 5).1 5).1 ∧
      (NewTimer (NewTicker (NewMock 100) 5).1 5).1.pending ≠ [] ∧
      ∃ t, (∃ e ∈ (NewTimer (NewTicker (NewMock 100) 5).1 5).1.pending, e.fireAt = t) ∧
        (∀ e ∈ (NewTimer (NewTicker (NewMock 100) 5).1 5).1.pending, t ≤ e.fireAt) ∧
        (AddNext (NewTimer (NewTicker (NewMock 100) 5).1 5).1).1.now = t ∧
        (AddNext (NewTimer (NewTicker (NewMock 100) 5).1 5).1).2.1 =
          t - (NewTimer (NewTicker (NewMock 100) 5).1 5).1.now ∧
        ∀ q, firingsOf q (AddNext (NewTimer (NewTicker (NewMock 100) 5).1 5).1).2.2 =
          if ∃ e ∈ (NewTimer (NewTicker (NewMock 100) 5).1 5).1.pending,
              e.seq = q ∧ e.fireAt = t then [t] else [] :=
  ⟨WF_NewTimer (WF_NewTicker (WF_NewMock 100) 5 (by decide)) 5, by decide,
    (AddNext_fires_minimum_batch _
      (WF_NewTimer (WF_NewTicker (WF_NewMock 100) 5 (by decide)) 5)).2 (by decide)⟩

/-! ## The claims about the derived contexts -/

theorem Sys.start_of_deadlineContext {m m' : Mock} {parent : Context} {deadline : Int}
    {r : Derived} {s0 : Sys} (h : deadlineContext m parent deadline = .returned (m', r))
    (hs : Sys.start m' r = some s0) :
    s0 = { m := m', parent := parent, cancelErr := parent.Err, deadline := deadline,
           done := false, err := none, t := m.nextSeq, pc := .select, closes := 0 } := by
  obtain ⟨_, hr, _⟩ := deadlineContext_some h
  subst hr
  unfold deadlineContextBody at hs
  cases hp : parent.Deadline with
  | none =>
    simp only [hp, Sys.start, WithCancel, newTimerFunc, Option.some.injEq] at hs
    exact hs.symm
  | some pd =>
    by_cases hlt : pd < deadline
    · simp only [hp, hlt, not_true_eq_false, if_false, Sys.start, WithCancel, newTimerFunc,
        Option.some.injEq] at hs
      exact hs.symm
    · simp [hp, hlt, Sys.start, WithCancel] at hs

theorem Inv_start {m m' : Mock} {parent : Context} {deadline : Int}
    {r : Derived} {s0 : Sys} (h : deadlineContext m parent deadline = .returned (m', r))
    (hs : Sys.start m' r = some s0) : Inv s0 := by
  rw [Sys.start_of_deadlineContext h hs]
  simp [Inv]

theorem Err_of_Inv {s : Sys} (h : Inv s) :
    (s.ctx.Err = none ↔ s.ctx.isDone = false) ∧
    (s.ctx.isDone = true →
      s.ctx.Err = some .DeadlineExceeded ∨
        (s.ctx.Err = s.cancelCtx.Err ∧ s.cancelCtx.Err ≠ none)) ∧
    s.closes ≤ 1 := by
  obtain ⟨m, parent, cancelErr, deadline, done, err, t, pc, closes⟩ := s
  rcases pc with _ | ⟨_ | _⟩ | _ | _
  case exited =>
    simp only [Inv] at h
    rcases h with ⟨h1, h2, h3 | ⟨h3, h4⟩⟩ <;>
      simp_all [Sys.ctx, Sys.cancelCtx, Context.Err, Context.isDone]
  all_goals simp_all [Inv, Sys.ctx, Sys.cancelCtx, Context.Err, Context.isDone]

/-- C5. For the `mockCtx` of every call of `deadlineContext` that returns one, in every
state reached by any sequence of cancellations, clock advances and goroutine steps:
`Err()` is nil exactly when `done` is not closed; once `done` is closed `Err()` is
`context.DeadlineExceeded` or the non-nil error of the inner `cancelCtx`; `close(ctx.done)`
has run at most once; and from then on no step changes `done`, `Err()` or that count. -/
theorem mockCtx_Err_invariant (m m' : Mock) (parent : Context) (deadline : Int)
    (r : Derived) (s0 : Sys) (h : deadlineContext m parent deadline = .returned (m', r))
    (hs : Sys.start m' r = some s0) (es : List Event) :
    ((run s0 es).ctx.Err = none ↔ (run s0 es).ctx.isDone = false) ∧
    ((run s0 es).ctx.isDone = true →
      (run s0 es).ctx.Err = some .DeadlineExceeded ∨
        ((run s0 es).ctx.Err = (run s0 es).cancelCtx.Err ∧
          (run s0 es).cancelCtx.Err ≠ none)) ∧
    (run s0 es).closes ≤ 1 ∧
    ((run s0 es).ctx.isDone = true →
      ∀ es', (run (run s0 es) es').ctx.isDone = true ∧
        (run (run s0 es) es').ctx.Err = (run s0 es).ctx.Err ∧
        (run (run s0 es) es').closes = (run s0 es).closes) := by
  have hI : Inv (run s0 es) := run_Inv es s0 (Inv_start h hs)
  obtain ⟨h1, h2, h3⟩ := Err_of_Inv hI
  refine ⟨h1, h2, h3, ?_⟩
  intro hd es'
  have hd' : (run s0 es).done = true := hd
  obtain ⟨g1, g2, g3⟩ := run_done es' (run s0 es) hI hd'
  refine ⟨g1, ?_, g3⟩
  simp only [Sys.ctx, Context.Err, g1, g2, hd', if_true]

theorem mockCtx_Err_invariant_witness :
    deadlineContext (NewMock 0) Background 10 = .returned (testMock, testDerived) ∧
      Sys.start testMock testDerived = some testSys ∧
      ((run testSys [.add 20, .selectTimer, .resume]).ctx.Err = none ↔
        (run testSys [.add 20, .selectTimer, .resume]).ctx.isDone = false) :=
  ⟨by decide, by decide,
    (mockCtx_Err_invariant (NewMock 0) testMock Background 10 testDerived testSys
      (by decide) (by decide) [.add 20, .selectTimer, .resume]).1⟩

theorem fireLoop_absent {q : Nat} :
    ∀ (n : Nat) (m : Mock), (∀ e ∈ m.pending, e.seq ≠ q) →
      ∀ e ∈ (fireLoop n m).1.pending, e.seq ≠ q := by
  intro n
  induction n with
  | zero => intro m h; exact h
  | succ k ih =>
    intro m h
    unfold fireLoop
    cases hx : nextDue m with
    | none => exact h
    | some x =>
      apply ih (fire m x)
      intro e he
      obtain ⟨y, hy, hye⟩ := rearm_seq e he
      rw [← hye]
      exact h y hy

theorem Add_absent {q : Nat} {m : Mock} (delta : Int) (h : ∀ e ∈ m.pending, e.seq ≠ q) :
    ∀ e ∈ (Add m delta).1.pending, e.seq ≠ q :=
  fireLoop_absent _ _ h

theorem AddNext_absent {q : Nat} {m : Mock} (h : ∀ e ∈ m.pending, e.seq ≠ q) :
    ∀ e ∈ (AddNext m).1.pending, e.seq ≠ q := by
  unfold AddNext
  cases minFireAt m.pending with
  | none => exact h
  | some t => exact fireLoop_absent _ _ h

theorem Stop_absent (m : Mock) (q : Nat) : ∀ e ∈ (Stop m q).1.pending, e.seq ≠ q := by
  intro e he
  have he' : e ∈ m.pending.filter (fun x => x.seq ≠ q) := he
  simpa using (List.mem_filter.mp he').2

/-- Once the goroutine has taken the cancellation case, every step keeps it so, never
moves the goroutine back, and a step of the goroutine moves it on. -/
theorem step_Cancelled {c : Err} {t : Nat} (s : Sys) (e : Event) (h : Cancelled c t s) :
    Cancelled c t (step s e) ∧ s.pc.rank ≤ (step s e).pc.rank ∧
      (e = .resume → min 2 (s.pc.rank + 1) ≤ (step s e).pc.rank) := by
  obtain ⟨m, parent, cancelErr, deadline, done, err, st, pc, closes⟩ := s
  obtain ⟨h1, h2, h3, h4⟩ := h
  simp only at h1 h2 h3 h4
  subst h1 h2 h3
  rcases pc with _ | ⟨_ | _⟩ | _ | _
  · exact absurd h4 (by simp)
  · simp at h4
  · cases e <;> simp_all [step, Cancelled, Pc.rank]
  · cases e
    case resume =>
      have := Stop_absent m st
      simp_all [step, Cancelled, Pc.rank]
    all_goals simp_all [step, Cancelled, Pc.rank]
  · cases e
    case add delta =>
      have := Add_absent (q := st) (m := m) delta h4.2
      simp_all [step, Cancelled, Pc.rank]
    case addNext =>
      have := AddNext_absent (q := st) (m := m) h4.2
      simp_all [step, Cancelled, Pc.rank]
    all_goals simp_all [step, Cancelled, Pc.rank]

theorem run_Cancelled {c : Err} {t : Nat} :
    ∀ (es : List Event) (s : Sys), Cancelled c t s →
      Cancelled c t (run s es) ∧
        min 2 (s.pc.rank + es.count .resume) ≤ (run s es).pc.rank := by
  intro es
  induction es with
  | nil => intro s h; exact ⟨h, by simp [run]⟩
  | cons e es ih =>
    intro s h
    obtain ⟨h1, h2, h3⟩ := step_Cancelled s e h
    obtain ⟨g1, g2⟩ := ih (step s e) h1
    refine ⟨g1, ?_⟩
    show min 2 (s.pc.rank + (e :: es).count .resume) ≤ (run (step s e) es).pc.rank
    by_cases he : e = .resume
    · have := h3 he
      subst he
      simp only [List.count_cons_self]
      omega
    · have hne : (e == Event.resume) = false := by simpa using he
      simp only [List.count_cons, hne]
      simp only [Bool.false_eq_true, if_false, Nat.add_zero]
      omega

theorem Cancelled_facts {c : Err} {t : Nat} {s : Sys} (h : Cancelled c t s) :
    s.cancelCtx.Err = some c ∧ (s.ctx.isDone = true → s.ctx.Err = some c) ∧
      (1 ≤ s.pc.rank → s.ctx.isDone = true) ∧
      (2 ≤ s.pc.rank → ∀ e ∈ s.m.pending, e.seq ≠ t) := by
  obtain ⟨m, parent, cancelErr, deadline, done, err, st, pc, closes⟩ := s
  obtain ⟨h1, h2, h3, h4⟩ := h
  simp only at h1 h2 h3 h4
  subst h1 h2 h3
  rcases pc with _ | ⟨_ | _⟩ | _ | _ <;>
    simp_all [Sys.ctx, Sys.cancelCtx, Context.Err, Context.isDone, Pc.rank]

theorem rank_selectCancel (s : Sys) (h : s.pc = .select) :
    (step s .selectCancel).pc.rank = 0 := by
  obtain ⟨m, parent, cancelErr, deadline, done, err, t, pc, closes⟩ := s
  simp only at h
  subst h
  cases cancelErr <;> simp [step, Pc.rank]

/-- C4, as amended. For the `mockCtx` of every call of `deadlineContext` that returns one,
in every reachable state in which the inner `cancelCtx` is cancelled with cause `c`, the
goroutine is at its `select` and the timer has not fired: the timer case of the `select`
is not ready, so the `select` takes the cancellation, and then, whatever else happens,
the error of the inner `cancelCtx` stays `c`, `Err()` is `c` as soon as `done` is closed,
`done` is closed by the goroutine's next step, and after its second step the timer is not
pending any more. The cause is `context.Canceled` when the returned cancel function was
called and the parent's cause when the parent was cancelled. -/
theorem cancel_seen_before_deadline_resolves (m m' : Mock) (parent : Context)
    (deadline : Int) (r : Derived) (s0 : Sys)
    (h : deadlineContext m parent deadline = .returned (m', r))
    (hs : Sys.start m' r = some s0) (es : List Event) (c : Err)
    (hsel : (run s0 es).pc = .select)
    (hslot : (run s0 es).m.slots.lookup (run s0 es).t = none)
    (hc : (run s0 es).cancelErr = some c) :
    step (run s0 es) .selectTimer = run s0 es ∧
    (∀ es1 : List Event,
      (run (step (run s0 es) .selectCancel) es1).cancelCtx.Err = some c ∧
      ((run (step (run s0 es) .selectCancel) es1).ctx.isDone = true →
        (run (step (run s0 es) .selectCancel) es1).ctx.Err = some c) ∧
      (1 ≤ es1.count .resume →
        (run (step (run s0 es) .selectCancel) es1).ctx.isDone = true) ∧
      (2 ≤ es1.count .resume →
        ∀ e ∈ (run (step (run s0 es) .selectCancel) es1).m.pending,
          e.seq ≠ (run s0 es).t)) ∧
    (∀ s : Sys, s.cancelErr = none →
      (step s .cancel).cancelErr = some .Canceled ∧
      ∀ cause, (step s (.parentDone cause)).cancelErr = some cause) := by
  have hI : Inv (run s0 es) := run_Inv es s0 (Inv_start h hs)
  generalize run s0 es = s at hI hsel hslot hc
  obtain ⟨sm, sparent, scancelErr, sdeadline, sdone, serr, st, spc, scloses⟩ := s
  simp only at hsel hslot hc
  subst hsel hc
  simp only [Inv] at hI
  obtain ⟨hd, _, _⟩ := hI
  subst hd
  refine ⟨?_, ?_, ?_⟩
  · simp [step, hslot]
  · intro es1
    have hstart : Cancelled c st
        (step { m := sm, parent := sparent, cancelErr := some c, deadline := sdeadline,
                done := false, err := serr, t := st, pc := .select, closes := scloses }
          .selectCancel) := by
      simp [step, Cancelled]
    obtain ⟨g1, g2⟩ := run_Cancelled es1 _ hstart
    obtain ⟨f1, f2, f3, f4⟩ := Cancelled_facts g1
    refine ⟨f1, f2, ?_, ?_⟩
    · intro hk
      apply f3
      have := rank_selectCancel _ (rfl : (Sys.mk sm sparent (some c) sdeadline false serr st
        Pc.select scloses).pc = Pc.select)
      omega
    · intro hk
      apply f4
      have := rank_selectCancel _ (rfl : (Sys.mk sm sparent (some c) sdeadline false serr st
        Pc.select scloses).pc = Pc.select)
      omega
  · intro s hn
    obtain ⟨_, _, ce, _, _, _, _, _, _⟩ := s
    simp only at hn
    subst hn
    exact ⟨rfl, fun _ => rfl⟩

theorem cancel_seen_before_deadline_resolves_witness :
    deadlineContext (NewMock 0) Background 10 = .returned (testMock, testDerived) ∧
      Sys.start testMock testDerived = some testSys ∧
      (run testSys [.add 5, .cancel]).pc = .select ∧
      (run testSys [.add 5, .cancel]).m.slots.lookup (run testSys [.add 5, .cancel]).t = none ∧
      (run testSys [.add 5, .cancel]).cancelErr = some .Canceled ∧
      step (run testSys [.add 5, .cancel]) .selectTimer = run testSys [.add 5, .cancel] ∧
      ∀ es1 : List Event,
        (run (step (run testSys [.add 5, .cancel]) .selectCancel) es1).cancelCtx.Err
          = some .Canceled ∧
        ((run (step (run testSys [.add 5, .cancel]) .selectCancel) es1).ctx.isDone = true →
          (run (step (run testSys [.add 5, .cancel]) .selectCancel) es1).ctx.Err
            = some .Canceled) ∧
        (1 ≤ es1.count .resume →
          (run (step (run testSys [.add 5, .cancel]) .selectCancel) es1).ctx.isDone = true) ∧
        (2 ≤ es1.count .resume →
          ∀ e ∈ (run (step (run testSys [.add 5, .cancel]) .selectCancel) es1).m.pending,
            e.seq ≠ (run testSys [.add 5, .cancel]).t) :=
  ⟨by decide, by decide, by decide, by decide, by decide,
    (cancel_seen_before_deadline_resolves (NewMock 0) testMock Background 10 testDerived
      testSys (by decide) (by decide) [.add 5, .cancel] .Canceled (by decide) (by decide)
      (by decide)).1,
    (cancel_seen_before_deadline_resolves (NewMock 0) testMock Background 10 testDerived
      testSys (by decide) (by decide) [.add 5, .cancel] .Canceled (by decide) (by decide)
      (by decide)).2.1⟩

/-- C4, as stated, fails. The context with deadline 10 derived from `Background`: its
cancel function is called at time 0, when its timer is pending and has not fired; the
clock is then advanced by 20, which fires the timer, before the goroutine has run its
`select`; both cases are ready and the `select` may take `<-t.C`. Then `done` is closed
and `Err()` is `context.DeadlineExceeded`, not the `context.Canceled` of the inner
`cancelCtx`. -/
theorem cancel_then_timer_fires_first_seen :
    deadlineContext (NewMock 0) Background 10 = .returned (testMock, testDerived) ∧
    Sys.start testMock testDerived = some testSys ∧
    (run testSys [.cancel]).cancelCtx.Err = some .Canceled ∧
    (run testSys [.cancel]).m.pending = testMock.pending ∧
    (run testSys [.cancel]).m.slots.lookup 0 = none ∧
    (run testSys [.cancel, .add 20]).m.slots.lookup 0 = some 10 ∧
    (run testSys [.cancel, .add 20, .selectTimer, .resume]).ctx.isDone = true ∧
    (run testSys [.cancel, .add 20, .selectTimer, .resume]).ctx.Err
      = some .DeadlineExceeded ∧
    (run testSys [.cancel, .add 20, .selectTimer, .resume]).cancelCtx.Err
      = some .Canceled := by
  decide

/-- C6. Started with the lock free, `TimeoutContext(parent, timeout)` ends as
`DeadlineContext(parent, m.Now().Add(timeout))` does in the same engine state: the same
outcome in the same engine state, reached through the same call
`deadlineContext(parent, now + timeout)` made with the lock held; that call is where, in
this code, both are left blocked. -/
theorem TimeoutContext_eq_DeadlineContext (m : Mock) (parent : Context) (timeout : Int)
    (h : m.locked = false) :
    TimeoutContext m parent timeout = TimeoutContextSpec m parent timeout ∧
    TimeoutContext m parent timeout =
      .blocked { m with locked := true } (.deadlineContext parent (m.now + timeout)) := by
  unfold TimeoutContext TimeoutContextSpec DeadlineContext Now
  simp [Lock, h, deadlineContext_of_locked]

theorem TimeoutContext_eq_DeadlineContext_witness :
    (NewMock 0).locked = false ∧
      TimeoutContext (NewMock 0) Background 10 = TimeoutContextSpec (NewMock 0) Background 10 ∧
      TimeoutContext (NewMock 0) Background 10 =
        .blocked { NewMock 0 with locked := true } (.deadlineContext Background 10) :=
  ⟨rfl, (TimeoutContext_eq_DeadlineContext (NewMock 0) Background 10 rfl).1,
    (TimeoutContext_eq_DeadlineContext (NewMock 0) Background 10 rfl).2⟩

/-- C10. `DeadlineContext` and `TimeoutContext` never return, whatever the engine state,
the parent and the deadline: each takes the lock and, holding it, calls `deadlineContext`,
and that call never returns because its first statement takes the same lock again.
Started with the lock free, each is left blocked in `deadlineContext` with the lock
held. -/
theorem DeadlineContext_TimeoutContext_never_return (m : Mock) (parent : Context)
    (d timeout : Int) :
    (DeadlineContext m parent d).result = none ∧
    (TimeoutContext m parent timeout).result = none ∧
    (Lock m).bind (fun m1 => (deadlineContext m1 parent d).result) = none ∧
    DeadlineContext m parent d =
      (if m.locked then .blocked m (.DeadlineContext parent d)
       else .blocked { m with locked := true } (.deadlineContext parent d)) ∧
    TimeoutContext m parent timeout =
      (if m.locked then .blocked m (.TimeoutContext parent timeout)
       else .blocked { m with locked := true }
         (.deadlineContext parent (m.now + timeout))) := by
  unfold DeadlineContext TimeoutContext
  cases hl : m.locked <;>
    simp [Lock, hl, deadlineContext_of_locked, Outcome.result]

/-- C1. Given the parent `ctx1` of the test (deadline 10), `deadlineContext` entered with
the lock free returns for `d = 15` a context that reports 15, later than its parent's 10,
and for `d = 5` a context that reports 10, later than `d`; `DeadlineContext` itself returns
nothing for either. -/
theorem deadlineContext_reports_later_deadline :
    (deadlineContext (NewMock 20) testCtx1 15).result.map (fun x => x.2.ctx.Deadline)
      = some (some 15) ∧
    (deadlineContext (NewMock 20) testCtx1 5).result.map (fun x => x.2.ctx.Deadline)
      = some (some 10) ∧
    (DeadlineContext (NewMock 20) testCtx1 15).result = none ∧
    (DeadlineContext (NewMock 20) testCtx1 5).result = none := by
  decide

/-- C2. Given a parent with deadline 20 that is never cancelled, `deadlineContext(parent,
10)` entered with the lock free returns the plain `cancelCtx` and schedules nothing, so
advancing the clock to 10 fires nothing and the context is still not done;
`DeadlineContext` itself returns nothing. -/
theorem deadlineContext_earlier_deadline_never_fires :
    deadlineContext (NewMock 0) (.other (some 20) none) 10 =
      .returned (NewMock 0, { ctx := .cancelCtx (.other (some 20) none) none, waiter := none }) ∧
    Sys.start (NewMock 0) { ctx := .cancelCtx (.other (some 20) none) none, waiter := none }
      = none ∧
    Add (NewMock 0) 10 = ({ NewMock 0 with now := 10 }, []) ∧
    (Context.cancelCtx (.other (some 20) none) none).isDone = false ∧
    (DeadlineContext (NewMock 0) (.other (some 20) none) 10).result = none := by
  decide

/-- C3. Entered with the lock free, `deadlineContext` schedules a new entry for a parent
with deadline 10 and `d = 15`, and for `d = 5` leaves `pending` empty and returns the
plain `cancelCtx`; `DeadlineContext` itself schedules nothing, as it returns nothing, even
for a parent without a deadline. -/
theorem deadlineContext_schedules_for_later_deadline :
    (deadlineContext (NewMock 0) (.other (some 10) none) 15).result.map (fun x => x.1.pending) =
      some [{ seq := 0, fireAt := 15, period := 0, isFunc := false }] ∧
    deadlineContext (NewMock 0) (.other (some 10) none) 5 =
      .returned (NewMock 0, { ctx := WithCancel (.other (some 10) none), waiter := none }) ∧
    (DeadlineContext (NewMock 0) Background 15).result = none ∧
    DeadlineContext (NewMock 0) Background 15 =
      .blocked { NewMock 0 with locked := true } (.deadlineContext Background 15) := by
  decide

end Clock
